import Mathlib

/- Shallow embedding of the optical-flow color encoder of helpmotion.py
   (flow2img, flow_to_color, flow_compute_color, make_colorwheel).
   Numpy arrays are modelled as lists of per-pixel values; the elementwise
   numpy operations become per-pixel functions over the reals, and the
   integer-valued color wheel is modelled over the integers. -/

namespace HelpMotion

/-- Segment lengths of the color wheel, source lines 141-146. -/
def RY : ℕ := 15

/-- Length of the yellow-green segment. -/
def YG : ℕ := 6

/-- Length of the green-cyan segment. -/
def GC : ℕ := 4

/-- Length of the cyan-blue segment. -/
def CB : ℕ := 11

/-- Length of the blue-magenta segment. -/
def BM : ℕ := 13

/-- Length of the magenta-red segment. -/
def MR : ℕ := 6

/-- Total number of palette rows, source line 148. -/
def ncols : ℕ := RY + YG + GC + CB + BM + MR

/-- Red-yellow block of the wheel: channel 0 saturated, channel 1 a ramp
floor(255*j/RY), channel 2 left at its zero initial value (lines 153-154). -/
def seg_RY : List (ℤ × ℤ × ℤ) :=
  (List.range RY).map fun j => (255, 255 * (j : ℤ) / (RY : ℤ), 0)

/-- Yellow-green block: channel 0 a descending ramp, channel 1 saturated
(lines 157-158). -/
def seg_YG : List (ℤ × ℤ × ℤ) :=
  (List.range YG).map fun j => (255 - 255 * (j : ℤ) / (YG : ℤ), 255, 0)

/-- Green-cyan block: channel 1 saturated, channel 2 a ramp (lines 161-162). -/
def seg_GC : List (ℤ × ℤ × ℤ) :=
  (List.range GC).map fun j => (0, 255, 255 * (j : ℤ) / (GC : ℤ))

/-- Cyan-blue block: channel 1 a descending ramp, channel 2 saturated
(lines 165-166). -/
def seg_CB : List (ℤ × ℤ × ℤ) :=
  (List.range CB).map fun j => (0, 255 - 255 * (j : ℤ) / (CB : ℤ), 255)

/-- Blue-magenta block: channel 2 saturated, channel 0 a ramp (lines 169-170). -/
def seg_BM : List (ℤ × ℤ × ℤ) :=
  (List.range BM).map fun j => (255 * (j : ℤ) / (BM : ℤ), 0, 255)

/-- Magenta-red block: channel 2 a descending ramp, channel 0 saturated
(lines 173-174). -/
def seg_MR : List (ℤ × ℤ × ℤ) :=
  (List.range MR).map fun j => (255, 0, 255 - 255 * (j : ℤ) / (MR : ℤ))

/-- The full color wheel: the six slice assignments of make_colorwheel, in
the order the running offset `col` visits them (lines 148-175). -/
def make_colorwheel : List (ℤ × ℤ × ℤ) :=
  seg_RY ++ seg_YG ++ seg_GC ++ seg_CB ++ seg_BM ++ seg_MR

/-- Channel projection of one palette row. -/
def wheelChannel (p : ℤ × ℤ × ℤ) (i : Fin 3) : ℤ :=
  match i.val with
  | 0 => p.1
  | 1 => p.2.1
  | _ => p.2.2

/-- Indexing `colorwheel[k, i]`; rows are only ever accessed at k below ncols. -/
def colorwheel (k : ℕ) (i : Fin 3) : ℤ :=
  wheelChannel (make_colorwheel.getD k (0, 0, 0)) i

theorem ncols_eq : ncols = 55 := rfl

/-- Every accessed palette value is an integer in [0, 255]. -/
theorem colorwheel_mem_Icc : ∀ k : Fin 55, ∀ i : Fin 3,
    0 ≤ colorwheel k i ∧ colorwheel k i ≤ 255 := by decide

/-- Model of np.arctan2 y x over the reals: the argument of the complex
number x + y i, valued in (-pi, pi]. -/
noncomputable def arctan2 (y x : ℝ) : ℝ := Complex.arg ⟨x, y⟩

/-- Per-pixel radius rad = sqrt(u^2 + v^2), source lines 75 and 107. -/
noncomputable def rad (u v : ℝ) : ℝ := Real.sqrt (u ^ 2 + v ^ 2)

/-- Per-pixel angle a = arctan2(-v, -u) / pi, source line 108. -/
noncomputable def angle_a (u v : ℝ) : ℝ := arctan2 (-v) (-u) / Real.pi

/-- Fractional wheel index fk = (a + 1) / 2 * (ncols - 1), source line 110. -/
noncomputable def fk (u v : ℝ) : ℝ := (angle_a u v + 1) / 2 * ((ncols : ℝ) - 1)

/-- Integer floor index k0 = floor(fk), source line 111. -/
noncomputable def k0 (u v : ℝ) : ℤ := ⌊fk u v⌋

/-- Next index k1 = k0 + 1 with the wraparound k1[k1 == ncols] = 1,
source lines 112-113. -/
noncomputable def k1 (u v : ℝ) : ℤ :=
  if k0 u v + 1 = (ncols : ℤ) then 1 else k0 u v + 1

/-- Interpolation weight f = fk - k0, source line 114. -/
noncomputable def fpart (u v : ℝ) : ℝ := fk u v - (k0 u v : ℝ)

/-- col0 = colorwheel[k0, i] / 255, source line 118. -/
noncomputable def col0 (u v : ℝ) (i : Fin 3) : ℝ :=
  (colorwheel (k0 u v).toNat i : ℝ) / 255

/-- col1 = colorwheel[k1, i] / 255, source line 119. -/
noncomputable def col1 (u v : ℝ) (i : Fin 3) : ℝ :=
  (colorwheel (k1 u v).toNat i : ℝ) / 255

/-- Interpolated base color col = (1 - f) * col0 + f * col1, source line 120. -/
noncomputable def baseCol (u v : ℝ) (i : Fin 3) : ℝ :=
  (1 - fpart u v) * col0 u v i + fpart u v * col1 u v i

/-- Radial shading, source lines 122-124: pixels with rad <= 1 are blended
toward white, pixels with rad > 1 are darkened by the fixed factor 0.75. -/
noncomputable def shadedCol (u v : ℝ) (i : Fin 3) : ℝ :=
  if rad u v ≤ 1 then 1 - rad u v * (1 - baseCol u v i)
  else baseCol u v i * 0.75

/-- Stored channel value floor(255 * col), source line 128. -/
noncomputable def channelValue (u v : ℝ) (i : Fin 3) : ℤ := ⌊255 * shadedCol u v i⌋

/-- One pixel of flow_compute_color: the loop writes the result computed
from palette channel i into output channel 2 - i when convert_to_bgr is
set, else into channel i (source lines 116-128); so output channel ch
holds the value computed for palette channel 2 - ch, respectively ch. -/
noncomputable def flow_compute_color_px (u v : ℝ) (convert_to_bgr : Bool) :
    Fin 3 → ℤ :=
  fun ch => channelValue u v (if convert_to_bgr then 2 - ch else ch)

/-- flow_compute_color over a flattened list of normalized pixels,
source lines 91-130. -/
noncomputable def flow_compute_color (uv : List (ℝ × ℝ)) (convert_to_bgr : Bool) :
    List (Fin 3 → ℤ) :=
  uv.map fun p => flow_compute_color_px p.1 p.2 convert_to_bgr

/-- Epsilon guard of the normalizer, source line 81. -/
noncomputable def epsilon : ℝ := 1e-5

/-- rad_max = np.max(rad), source lines 75-76, over the flattened field.
np.max of a list of nonnegative radii equals this fold for a nonempty
field (np.max raises on an empty array, which is outside the model). -/
noncomputable def radMax (pixels : List (ℝ × ℝ)) : ℝ :=
  (pixels.map fun p => rad p.1 p.2).foldr max 0

/-- Normalization divisor: the caller-supplied max_mag when present, else
the observed maximum radius, plus epsilon (source lines 76-83). -/
noncomputable def scale (pixels : List (ℝ × ℝ)) (max_mag : Option ℝ) : ℝ :=
  (match max_mag with
   | some m => m
   | none => radMax pixels) + epsilon

/-- Elementwise np.clip(flow_uv, 0, c), source line 70. -/
noncomputable def clipField (pixels : List (ℝ × ℝ)) (c : ℝ) : List (ℝ × ℝ) :=
  pixels.map fun p => (min (max p.1 0) c, min (max p.2 0) c)

/-- flow_to_color over the flattened field (source lines 50-89).  The
permute/reshape of lines 65-67 only flattens the (N,2,H,W) tensor into the
pixel list.  Note line 70: the result of np.clip is rebound to the local
name flow_uv, but u and v (lines 72-73) are read from flow_uv_numpy, which
was extracted on lines 66-67 BEFORE the clip; the clipped tensor is never
read again, so the binding below is dead, exactly as in the source. -/
noncomputable def flow_to_color (pixels : List (ℝ × ℝ))
    (max_mag clip_flow : Option ℝ) (convert_to_bgr : Bool) :
    List (Fin 3 → ℤ) :=
  let _flow_uv_clipped : List (ℝ × ℝ) :=
    match clip_flow with
    | some c => clipField pixels c
    | none => pixels
  let s := scale pixels max_mag
  flow_compute_color (pixels.map fun p => (p.1 / s, p.2 / s)) convert_to_bgr

/-- Quantization of one channel value: np.clip(x, 0, 255) followed by the
truncating uint8 conversion (source lines 47-48; on the clipped,
nonnegative range the conversion is a floor). -/
noncomputable def clip8 (x : ℝ) : ℤ := ⌊min (max x 0) 255⌋

/-- flow2img: encode with default arguments, then quantize, source
lines 33-48. -/
noncomputable def flow2img (pixels : List (ℝ × ℝ)) : List (Fin 3 → ℤ) :=
  (flow_to_color pixels none none false).map fun g ch => clip8 ((g ch : ℤ) : ℝ)

/-- A tensor of arbitrary rank: a shape together with the value stored at
each multi-index.  Only the shape takes part in the assertions of
flow_to_color; the data feeds the pixel list. -/
structure Tensor where
  shape : List ℕ
  data : List ℕ → ℝ

/-- Number of dimensions, flow_uv.dim(). -/
def Tensor.dim (t : Tensor) : ℕ := t.shape.length

/-- Flattened (u, v) pixel list of a (N, 2, H, W) tensor, in the order the
permute and view of lines 65-67 produce. -/
def tensorPixels (t : Tensor) : List (ℝ × ℝ) :=
  match t.shape with
  | [n, _, h, w] =>
    (List.range n).flatMap fun b =>
      (List.range h).flatMap fun r =>
        (List.range w).map fun c =>
          (t.data [b, 0, r, c], t.data [b, 1, r, c])
  | _ => []

/-- flow_to_color with its two contract assertions (source lines 62-63)
made explicit: a violated assertion aborts with the assertion message and
produces no output. -/
noncomputable def flow_to_color_checked (t : Tensor)
    (max_mag clip_flow : Option ℝ) (convert_to_bgr : Bool) :
    Except String (List (Fin 3 → ℤ)) :=
  if t.dim ≠ 4 then .error "input must have 4 dimensions"
  else if t.shape.getD 1 0 ≠ 2 then .error "input flow must have shape [H,W,2]"
  else .ok (flow_to_color (tensorPixels t) max_mag clip_flow convert_to_bgr)

/-- Whether an Except value is the error case. -/
def isError {α : Type} : Except String α → Bool
  | .error _ => true
  | .ok _ => false

/-- Exchange channels 0 and 2 of a pixel, keeping channel 1. -/
def swap02 (g : Fin 3 → ℤ) : Fin 3 → ℤ :=
  fun ch => if ch = 0 then g 2 else if ch = 2 then g 0 else g 1

theorem neg_one_lt_angle_a (u v : ℝ) : -1 < angle_a u v := by
  have h := Complex.neg_pi_lt_arg (⟨-u, -v⟩ : ℂ)
  have hp := Real.pi_pos
  rw [angle_a, arctan2, lt_div_iff₀ hp]
  linarith

theorem angle_a_le_one (u v : ℝ) : angle_a u v ≤ 1 := by
  have h := Complex.arg_le_pi (⟨-u, -v⟩ : ℂ)
  have hp := Real.pi_pos
  rw [angle_a, arctan2, div_le_one hp]
  exact h

theorem ncols_cast_real : ((ncols : ℕ) : ℝ) = 55 := by norm_num [ncols_eq]

theorem fk_pos (u v : ℝ) : 0 < fk u v := by
  have h := neg_one_lt_angle_a u v
  rw [fk, ncols_cast_real]
  nlinarith

theorem fk_le (u v : ℝ) : fk u v ≤ 54 := by
  have h := angle_a_le_one u v
  rw [fk, ncols_cast_real]
  nlinarith

theorem k0_nonneg (u v : ℝ) : 0 ≤ k0 u v :=
  Int.floor_nonneg.mpr (fk_pos u v).le

theorem k0_le (u v : ℝ) : k0 u v ≤ 54 := by
  have h : (k0 u v : ℝ) ≤ 54 := le_trans (Int.floor_le _) (fk_le u v)
  exact_mod_cast h

theorem k1_pos (u v : ℝ) : 1 ≤ k1 u v := by
  have h := k0_nonneg u v
  rw [k1]
  split
  · norm_num
  · omega

theorem k1_le (u v : ℝ) : k1 u v ≤ 54 := by
  have h0 := k0_nonneg u v
  have h5 := k0_le u v
  rw [k1]
  split
  · norm_num
  · rename_i h
    rw [show ((ncols : ℕ) : ℤ) = 55 by norm_num [ncols_eq]] at h
    omega

theorem fpart_nonneg (u v : ℝ) : 0 ≤ fpart u v := by
  have h := Int.floor_le (fk u v)
  rw [fpart, k0]
  linarith

theorem fpart_lt_one (u v : ℝ) : fpart u v < 1 := by
  have h := Int.lt_floor_add_one (fk u v)
  rw [fpart, k0]
  push_cast at h ⊢
  linarith

theorem col0_range (u v : ℝ) (i : Fin 3) : 0 ≤ col0 u v i ∧ col0 u v i ≤ 1 := by
  have hk : (k0 u v).toNat < 55 := by
    have h1 := k0_le u v
    have h2 := k0_nonneg u v
    omega
  have h := colorwheel_mem_Icc ⟨(k0 u v).toNat, hk⟩ i
  rw [col0]
  constructor
  · apply div_nonneg _ (by norm_num)
    exact_mod_cast h.1
  · rw [div_le_one (by norm_num : (0:ℝ) < 255)]
    exact_mod_cast h.2

theorem col1_range (u v : ℝ) (i : Fin 3) : 0 ≤ col1 u v i ∧ col1 u v i ≤ 1 := by
  have hk : (k1 u v).toNat < 55 := by
    have h1 := k1_le u v
    have h2 := k1_pos u v
    omega
  have h := colorwheel_mem_Icc ⟨(k1 u v).toNat, hk⟩ i
  rw [col1]
  constructor
  · apply div_nonneg _ (by norm_num)
    exact_mod_cast h.1
  · rw [div_le_one (by norm_num : (0:ℝ) < 255)]
    exact_mod_cast h.2

theorem baseCol_range (u v : ℝ) (i : Fin 3) :
    0 ≤ baseCol u v i ∧ baseCol u v i ≤ 1 := by
  have h0 := col0_range u v i
  have h1 := col1_range u v i
  have hf0 := fpart_nonneg u v
  have hf1 := fpart_lt_one u v
  rw [baseCol]
  constructor
  · nlinarith
  · nlinarith

theorem rad_nonneg (u v : ℝ) : 0 ≤ rad u v := Real.sqrt_nonneg _

theorem shadedCol_range (u v : ℝ) (i : Fin 3) :
    0 ≤ shadedCol u v i ∧ shadedCol u v i ≤ 1 := by
  have hb := baseCol_range u v i
  have hr := rad_nonneg u v
  rw [shadedCol]
  split
  · rename_i h
    constructor
    · nlinarith
    · nlinarith
  · constructor
    · nlinarith
    · nlinarith

theorem channelValue_range (u v : ℝ) (i : Fin 3) :
    0 ≤ channelValue u v i ∧ channelValue u v i ≤ 255 := by
  have hs := shadedCol_range u v i
  rw [channelValue]
  constructor
  · exact Int.floor_nonneg.mpr (by nlinarith)
  · have h : (255 : ℝ) * shadedCol u v i ≤ ((255 : ℤ) : ℝ) := by push_cast; nlinarith
    calc ⌊255 * shadedCol u v i⌋ ≤ ⌊((255 : ℤ) : ℝ)⌋ := Int.floor_le_floor h
    _ = 255 := Int.floor_intCast 255

theorem foldr_max_nonneg (l : List ℝ) : 0 ≤ l.foldr max 0 := by
  induction l with
  | nil => simp
  | cons x t ih =>
    simp only [List.foldr]
    exact le_max_of_le_right ih

theorem radMax_nonneg (pixels : List (ℝ × ℝ)) : 0 ≤ radMax pixels :=
  foldr_max_nonneg _

theorem epsilon_pos : 0 < epsilon := by rw [epsilon]; norm_num

theorem scale_some (pixels : List (ℝ × ℝ)) (m : ℝ) :
    scale pixels (some m) = m + epsilon := rfl

theorem scale_none (pixels : List (ℝ × ℝ)) :
    scale pixels none = radMax pixels + epsilon := rfl

theorem arctan2_zero_nonneg (x : ℝ) (hx : 0 ≤ x) : arctan2 0 x = 0 := by
  rw [arctan2]
  have h : (⟨x, 0⟩ : ℂ) = (x : ℂ) := by
    apply Complex.ext <;> simp
  rw [h]
  exact Complex.arg_ofReal_of_nonneg hx

theorem angle_a_neg_axis (u : ℝ) (hu : u ≤ 0) : angle_a u 0 = 0 := by
  rw [angle_a, neg_zero, arctan2_zero_nonneg (-u) (by linarith), zero_div]

theorem angle_a_div (u v s : ℝ) (hs : 0 < s) :
    angle_a (u / s) (v / s) = angle_a u v := by
  rw [angle_a, angle_a, arctan2, arctan2]
  have h : (⟨-(u / s), -(v / s)⟩ : ℂ) = ((s⁻¹ : ℝ) : ℂ) * ⟨-u, -v⟩ := by
    apply Complex.ext <;>
      simp [Complex.mul_re, Complex.mul_im] <;>
      field_simp
  rw [h, Complex.arg_real_mul _ (inv_pos.mpr hs)]

theorem rad_div (u v s : ℝ) (hs : 0 < s) :
    rad (u / s) (v / s) = rad u v / s := by
  rw [rad, rad]
  have h : (u / s) ^ 2 + (v / s) ^ 2 = (u ^ 2 + v ^ 2) / s ^ 2 := by
    field_simp
  rw [h, Real.sqrt_div (by positivity), Real.sqrt_sq hs.le]

theorem rad_pos_of_ne_zero (u v : ℝ) (h : ¬(u = 0 ∧ v = 0)) : 0 < rad u v := by
  rw [rad]
  apply Real.sqrt_pos.mpr
  rcases not_and_or.mp h with hu | hv
  · nlinarith [pow_two_pos_of_ne_zero hu, sq_nonneg v]
  · nlinarith [pow_two_pos_of_ne_zero hv, sq_nonneg u]

theorem rad_zero : rad 0 0 = 0 := by
  rw [rad]
  norm_num

theorem shadedCol_zero (i : Fin 3) : shadedCol 0 0 i = 1 := by
  rw [shadedCol, rad_zero]
  norm_num

theorem channelValue_zero (i : Fin 3) : channelValue 0 0 i = 255 := by
  rw [channelValue, shadedCol_zero, mul_one,
    show (255 : ℝ) = ((255 : ℤ) : ℝ) by norm_num, Int.floor_intCast]

theorem px_zero (b : Bool) :
    flow_compute_color_px 0 0 b = fun _ : Fin 3 => (255 : ℤ) := by
  funext ch
  simp only [flow_compute_color_px]
  exact channelValue_zero _

theorem foldr_max_replicate_zero (n : ℕ) :
    (List.replicate n (0 : ℝ)).foldr max 0 = 0 := by
  induction n with
  | zero => rfl
  | succ m ih => simp [List.replicate_succ, List.foldr, ih]

theorem radMax_replicate_zero (n : ℕ) :
    radMax (List.replicate n ((0 : ℝ), (0 : ℝ))) = 0 := by
  rw [radMax, List.map_replicate, rad_zero, foldr_max_replicate_zero]

/-- C2: make_colorwheel, with no inputs, always returns a palette of exactly
55 color triples, partitioned into 6 contiguous segments of lengths 15, 6,
4, 11, 13, 6 (summing to 55), and every channel value of every entry is an
integer in [0, 255]. -/
theorem C2_palette_invariant :
    make_colorwheel.length = 55 ∧
    make_colorwheel = seg_RY ++ seg_YG ++ seg_GC ++ seg_CB ++ seg_BM ++ seg_MR ∧
    seg_RY.length = 15 ∧ seg_YG.length = 6 ∧ seg_GC.length = 4 ∧
    seg_CB.length = 11 ∧ seg_BM.length = 13 ∧ seg_MR.length = 6 ∧
    15 + 6 + 4 + 11 + 13 + 6 = 55 ∧
    ∀ p ∈ make_colorwheel,
      (0 ≤ p.1 ∧ p.1 ≤ 255) ∧ (0 ≤ p.2.1 ∧ p.2.1 ≤ 255) ∧
      (0 ≤ p.2.2 ∧ p.2.2 ≤ 255) := by decide

/-- C3: in flow_compute_color the interpolation indices satisfy
k0 = floor(fk) and k1 = k0 + 1, except that a k1 equal to ncols (55) is
replaced by 1, not 0; consequently k1 is always at least 1, so palette
entry 0 is never a k1 interpolation target. -/
theorem C3_index_wraparound (u v : ℝ) :
    k0 u v = ⌊fk u v⌋ ∧
    k1 u v = (if k0 u v + 1 = 55 then 1 else k0 u v + 1) ∧
    1 ≤ k1 u v := by
  refine ⟨rfl, ?_, k1_pos u v⟩
  rw [k1, show ((ncols : ℕ) : ℤ) = 55 by norm_num [ncols_eq]]

/-- C6: for every list of normalized pixels, flow_compute_color with the
channel-swap flag enabled returns exactly the image returned with the flag
disabled but with channel 0 and channel 2 exchanged and channel 1
unchanged. -/
theorem C6_channel_swap (uv : List (ℝ × ℝ)) :
    flow_compute_color uv true = (flow_compute_color uv false).map swap02 := by
  rw [flow_compute_color, flow_compute_color, List.map_map]
  apply List.map_congr_left
  intro p _
  funext ch
  fin_cases ch <;> rfl

/-- C9: the quantization step of flow2img (clip into [0, 255], then convert
to 8-bit integers) is idempotent: on an image whose values are already
integers in [0, 255] it returns the image unchanged. -/
theorem C9_quantize_idempotent (img : List ℤ)
    (h : ∀ x ∈ img, 0 ≤ x ∧ x ≤ 255) :
    img.map (fun x => clip8 ((x : ℤ) : ℝ)) = img := by
  induction img with
  | nil => rfl
  | cons a t ih =>
    have ha := h a (by simp)
    have ht : ∀ x ∈ t, 0 ≤ x ∧ x ≤ 255 := fun x hx => h x (by simp [hx])
    simp only [List.map_cons, ih ht, List.cons.injEq]
    refine ⟨?_, trivial⟩
    rw [clip8, max_eq_left (by exact_mod_cast ha.1),
      min_eq_left (by exact_mod_cast ha.2), Int.floor_intCast]

/-- Witness for C9 at the already-quantized image [0, 128, 255]. -/
theorem C9_quantize_idempotent_witness :
    (∀ x ∈ [(0 : ℤ), 128, 255], 0 ≤ x ∧ x ≤ 255) ∧
    [(0 : ℤ), 128, 255].map (fun x => clip8 ((x : ℤ) : ℝ)) = [0, 128, 255] :=
  ⟨by decide, C9_quantize_idempotent _ (by decide)⟩

/-- C10: every channel value flow_compute_color stores is an integer in
[0, 255], so the subsequent clip into [0, 255] in flow2img never changes
any value. -/
theorem C10_output_in_range (u v : ℝ) (b : Bool) (ch : Fin 3) :
    0 ≤ flow_compute_color_px u v b ch ∧
    flow_compute_color_px u v b ch ≤ 255 ∧
    clip8 ((flow_compute_color_px u v b ch : ℤ) : ℝ) =
      flow_compute_color_px u v b ch := by
  rcases channelValue_range u v (if b then 2 - ch else ch) with ⟨h1, h2⟩
  simp only [flow_compute_color_px]
  refine ⟨h1, h2, ?_⟩
  rw [clip8, max_eq_left (by exact_mod_cast h1),
    min_eq_left (by exact_mod_cast h2), Int.floor_intCast]

/-- C4: for an all-zero motion field the encoder produces an image in which
every pixel of every channel is exactly 255: rad is 0 everywhere, so the
shading yields 1 at every pixel, and floor(255 * 1) = 255. -/
theorem C4_zero_flow_white (n : ℕ) (b : Bool) (hn : 0 < n) :
    flow_to_color (List.replicate n ((0 : ℝ), (0 : ℝ))) none none b =
      List.replicate n (fun _ : Fin 3 => (255 : ℤ)) := by
  simp only [flow_to_color, flow_compute_color, List.map_replicate, zero_div]
  rw [px_zero]

/-- Witness for C4 on a one-pixel zero field. -/
theorem C4_zero_flow_white_witness :
    0 < 1 ∧
    flow_to_color (List.replicate 1 ((0 : ℝ), (0 : ℝ))) none none false =
      List.replicate 1 (fun _ : Fin 3 => (255 : ℤ)) :=
  ⟨by decide, C4_zero_flow_white 1 false (by decide)⟩

/-- C5: for every pixel with rad at most 1 the interpolated base color is
blended toward white as col = 1 - rad * (1 - col); for every pixel with
rad above 1 the base color is multiplied by the fixed constant 0.75, with
no graduated falloff as magnitude grows further (two over-range pixels
with the same angle store the same value, however large their radii). -/
theorem C5_radial_shading (u v u2 v2 : ℝ) (i : Fin 3) :
    (rad u v ≤ 1 →
      channelValue u v i = ⌊255 * (1 - rad u v * (1 - baseCol u v i))⌋) ∧
    (1 < rad u v →
      channelValue u v i = ⌊255 * (baseCol u v i * 0.75)⌋) ∧
    (1 < rad u v → 1 < rad u2 v2 → angle_a u v = angle_a u2 v2 →
      channelValue u v i = channelValue u2 v2 i) := by
  have hbase : angle_a u v = angle_a u2 v2 → baseCol u v i = baseCol u2 v2 i := by
    intro h
    simp only [baseCol, fpart, col0, col1, k1, k0, fk, h]
  refine ⟨?_, ?_, ?_⟩
  · intro h
    rw [channelValue, shadedCol, if_pos h]
  · intro h
    rw [channelValue, shadedCol, if_neg (not_le.mpr h)]
  · intro h1 h2 hangle
    rw [channelValue, channelValue, shadedCol, shadedCol,
      if_neg (not_le.mpr h1), if_neg (not_le.mpr h2), hbase hangle]

/-- Witness for C5: an in-range pixel, and the over-range pixels (3,4) and
(6,8) sharing one angle. -/
theorem C5_radial_shading_witness :
    rad 1 0 ≤ 1 ∧ 1 < rad 3 4 ∧ 1 < rad 6 8 ∧ angle_a 3 4 = angle_a 6 8 ∧
    channelValue 1 0 0 = ⌊255 * (1 - rad 1 0 * (1 - baseCol 1 0 0))⌋ ∧
    channelValue 3 4 0 = ⌊255 * (baseCol 3 4 0 * 0.75)⌋ ∧
    channelValue 3 4 0 = channelValue 6 8 0 := by
  have h10 : rad (1 : ℝ) 0 = 1 := by
    rw [rad]
    norm_num [Real.sqrt_one]
  have h34 : rad (3 : ℝ) 4 = 5 := by
    rw [rad, show (3 : ℝ) ^ 2 + 4 ^ 2 = 5 ^ 2 by norm_num,
      Real.sqrt_sq (by norm_num : (0 : ℝ) ≤ 5)]
  have h68 : rad (6 : ℝ) 8 = 10 := by
    rw [rad, show (6 : ℝ) ^ 2 + 8 ^ 2 = 10 ^ 2 by norm_num,
      Real.sqrt_sq (by norm_num : (0 : ℝ) ≤ 10)]
  have hangle : angle_a (3 : ℝ) 4 = angle_a 6 8 := by
    have h := angle_a_div 6 8 2 (by norm_num)
    norm_num at h
    exact h
  have ha : rad (1 : ℝ) 0 ≤ 1 := le_of_eq h10
  have hb : (1 : ℝ) < rad 3 4 := by rw [h34]; norm_num
  have hc : (1 : ℝ) < rad 6 8 := by rw [h68]; norm_num
  exact ⟨ha, hb, hc, hangle, (C5_radial_shading 1 0 0 0 0).1 ha,
    (C5_radial_shading 3 4 0 0 0).2.1 hb,
    (C5_radial_shading 3 4 6 8 0).2.2 hb hc hangle⟩

/-- C7: for a motion field with a non-zero vector, an explicit magnitude
cap smaller than the field maximum radius strictly enlarges the normalized
radius of every non-zero vector while leaving its angle unchanged, since u
and v are divided by the same positive scalar. -/
theorem C7_cap_angle_invariant (pixels : List (ℝ × ℝ)) (m u v : ℝ)
    (hm : 0 ≤ m) (hlt : m < radMax pixels) (hmem : (u, v) ∈ pixels)
    (hnz : (u, v) ≠ ((0 : ℝ), (0 : ℝ))) :
    angle_a (u / scale pixels (some m)) (v / scale pixels (some m)) =
      angle_a (u / scale pixels none) (v / scale pixels none) ∧
    rad (u / scale pixels none) (v / scale pixels none) <
      rad (u / scale pixels (some m)) (v / scale pixels (some m)) := by
  have he := epsilon_pos
  have hs1 : 0 < scale pixels (some m) := by
    rw [scale_some]
    linarith
  have hs2 : 0 < scale pixels none := by
    have := radMax_nonneg pixels
    rw [scale_none]
    linarith
  have hr : 0 < rad u v := by
    apply rad_pos_of_ne_zero
    intro hand
    exact hnz (by rw [hand.1, hand.2])
  constructor
  · rw [angle_a_div u v _ hs1, angle_a_div u v _ hs2]
  · rw [rad_div u v _ hs1, rad_div u v _ hs2]
    apply div_lt_div_of_pos_left hr hs1
    rw [scale_some, scale_none]
    linarith

/-- Witness for C7: the one-pixel field [(3, 4)] with maximum radius 5 and
the cap 1. -/
theorem C7_cap_angle_invariant_witness :
    (0 : ℝ) ≤ 1 ∧ (1 : ℝ) < radMax [((3 : ℝ), (4 : ℝ))] ∧
    ((3 : ℝ), (4 : ℝ)) ∈ [((3 : ℝ), (4 : ℝ))] ∧
    ((3 : ℝ), (4 : ℝ)) ≠ ((0 : ℝ), (0 : ℝ)) ∧
    (angle_a (3 / scale [((3 : ℝ), (4 : ℝ))] (some 1))
        (4 / scale [((3 : ℝ), (4 : ℝ))] (some 1)) =
      angle_a (3 / scale [((3 : ℝ), (4 : ℝ))] none)
        (4 / scale [((3 : ℝ), (4 : ℝ))] none) ∧
    rad (3 / scale [((3 : ℝ), (4 : ℝ))] none)
        (4 / scale [((3 : ℝ), (4 : ℝ))] none) <
      rad (3 / scale [((3 : ℝ), (4 : ℝ))] (some 1))
        (4 / scale [((3 : ℝ), (4 : ℝ))] (some 1))) := by
  have h34 : rad (3 : ℝ) 4 = 5 := by
    rw [rad, show (3 : ℝ) ^ 2 + 4 ^ 2 = 5 ^ 2 by norm_num,
      Real.sqrt_sq (by norm_num : (0 : ℝ) ≤ 5)]
  have hrm : radMax [((3 : ℝ), (4 : ℝ))] = 5 := by
    rw [radMax]
    simp only [List.map_cons, List.map_nil, List.foldr_cons, List.foldr_nil]
    rw [h34]
    exact max_eq_left (by norm_num)
  have h1 : (0 : ℝ) ≤ 1 := by norm_num
  have h2 : (1 : ℝ) < radMax [((3 : ℝ), (4 : ℝ))] := by
    rw [hrm]
    norm_num
  have h3 : ((3 : ℝ), (4 : ℝ)) ∈ [((3 : ℝ), (4 : ℝ))] := by simp
  have h4 : ((3 : ℝ), (4 : ℝ)) ≠ ((0 : ℝ), (0 : ℝ)) := by
    intro h
    injection h with ha hb
    norm_num at ha
  exact ⟨h1, h2, h3, h4, C7_cap_angle_invariant [((3 : ℝ), (4 : ℝ))] 1 3 4 h1 h2 h3 h4⟩

/-- C8: flow_to_color aborts with an assertion failure, producing no
output, exactly when its input does not have 4 dimensions or its second
dimension is not 2; for every input satisfying the precondition no
assertion fires. -/
theorem C8_shape_assertions (t : Tensor) (mm cf : Option ℝ) (b : Bool) :
    isError (flow_to_color_checked t mm cf b) = true ↔
      ¬(t.dim = 4 ∧ t.shape.getD 1 0 = 2) := by
  rw [flow_to_color_checked]
  split_ifs with h1 h2
  · simp_all [isError]
  · simp_all [isError]
  · simp_all [isError]

/-- C1: the clip_flow argument of flow_to_color has no effect, because the
result of np.clip (line 70) is bound to the local name flow_uv while u and
v are read from flow_uv_numpy, extracted before the clip (lines 66-67, 72-73).
First part: the output never depends on clip_flow.  Second part: on the
one-pixel field [(-1, 0)] with clip 1 the output differs from the output on
the field pre-clamped into [0, 1] (which is the zero field, encoded as pure
white), refuting the documented clipping behavior. -/
theorem C1_clip_flow_dead :
    (∀ (pixels : List (ℝ × ℝ)) (mm : Option ℝ) (c : ℝ) (b : Bool),
      flow_to_color pixels mm (some c) b = flow_to_color pixels mm none b) ∧
    flow_to_color [((-1 : ℝ), (0 : ℝ))] none (some 1) false ≠
      flow_to_color (clipField [((-1 : ℝ), (0 : ℝ))] 1) none (some 1) false := by
  constructor
  · intro pixels mm c b
    rfl
  · intro h
    have hclip : clipField [((-1 : ℝ), (0 : ℝ))] 1 = [((0 : ℝ), (0 : ℝ))] := by
      have e1 : max (-1 : ℝ) 0 = 0 := max_eq_right (by norm_num)
      have e2 : min (0 : ℝ) 1 = 0 := min_eq_left (by norm_num)
      have e3 : max (0 : ℝ) 0 = 0 := max_self 0
      rw [clipField]
      simp only [List.map_cons, List.map_nil, e1, e2, e3]
    have hRHS : flow_to_color [((0 : ℝ), (0 : ℝ))] none (some 1) false =
        [fun _ : Fin 3 => (255 : ℤ)] := by
      simp only [flow_to_color, flow_compute_color, List.map_cons, List.map_nil,
        zero_div]
      rw [px_zero]
    have hone : rad (-1 : ℝ) 0 = 1 := by
      rw [rad]
      norm_num [Real.sqrt_one]
    have hrm : radMax [((-1 : ℝ), (0 : ℝ))] = 1 := by
      rw [radMax]
      simp only [List.map_cons, List.map_nil, List.foldr_cons, List.foldr_nil]
      rw [hone]
      exact max_eq_left (by norm_num)
    have hs : scale [((-1 : ℝ), (0 : ℝ))] none = 100001 / 100000 := by
      rw [scale_none, hrm, epsilon]
      norm_num
    have hu : (-1 : ℝ) / (100001 / 100000) = -(100000 / 100001) := by norm_num
    have hLHS : flow_to_color [((-1 : ℝ), (0 : ℝ))] none (some 1) false =
        [flow_compute_color_px (-(100000 / 100001 : ℝ)) 0 false] := by
      simp only [flow_to_color, flow_compute_color, List.map_cons, List.map_nil,
        hs, zero_div]
      rw [hu]
    have hang : angle_a (-(100000 / 100001 : ℝ)) 0 = 0 :=
      angle_a_neg_axis _ (by norm_num)
    have hfk : fk (-(100000 / 100001 : ℝ)) 0 = 27 := by
      rw [fk, hang, ncols_cast_real]
      norm_num
    have hk0 : k0 (-(100000 / 100001 : ℝ)) 0 = 27 := by
      rw [k0, hfk, show (27 : ℝ) = ((27 : ℤ) : ℝ) by norm_num, Int.floor_intCast]
    have hf : fpart (-(100000 / 100001 : ℝ)) 0 = 0 := by
      rw [fpart, hfk, hk0]
      norm_num
    have hcol0 : col0 (-(100000 / 100001 : ℝ)) 0 0 = 0 := by
      rw [col0, hk0, show ((27 : ℤ)).toNat = 27 from rfl,
        show colorwheel 27 (0 : Fin 3) = 0 by decide]
      norm_num
    have hbase : baseCol (-(100000 / 100001 : ℝ)) 0 0 = 0 := by
      rw [baseCol, hf, hcol0]
      ring
    have hrad : rad (-(100000 / 100001 : ℝ)) 0 = 100000 / 100001 := by
      rw [rad, show (-(100000 / 100001 : ℝ)) ^ 2 + 0 ^ 2 =
        (100000 / 100001 : ℝ) ^ 2 by ring, Real.sqrt_sq (by norm_num)]
    have hval : channelValue (-(100000 / 100001 : ℝ)) 0 0 = 0 := by
      rw [channelValue, shadedCol, hrad,
        if_pos (by norm_num : (100000 / 100001 : ℝ) ≤ 1), hbase]
      apply Int.floor_eq_zero_iff.mpr
      constructor
      · norm_num
      · norm_num
    rw [hLHS, hclip, hRHS] at h
    injection h with hhead _
    have h0 := congrFun hhead 0
    simp only [flow_compute_color_px, if_neg (Bool.false_ne_true)] at h0
    rw [hval] at h0
    exact absurd h0 (by norm_num)

end HelpMotion
